import Mathlib

/-!
Verification of the parallel trajectory defect-analysis pipeline
(`03_pin_dislo/analysis.py`).

The Python source is shallowly embedded below: pure helper functions
(`split_indexes`, `natural_sort_key`, `get_filenames`) are translated
directly; the per-frame analysis (`process_file`, `performDXA`, `performWS`)
is embedded as list transformations plus an explicit event trace for its
side effects (file loads and exports).  The two OVITO modifiers invoked by
the source (`WignerSeitzAnalysisModifier`, `DislocationAnalysisModifier`)
are external library calls; their effect on the particle data is modelled
from the specification where noted.
-/

/-! ## Work partitioner (`split_indexes`, analysis.py lines 203-215)

Python:
```
chunk_size = n_files // size
remainder = n_files % size
if rank < remainder:
    start = rank * (chunk_size + 1)
    end = start + chunk_size + 1
else:
    start = rank * chunk_size + remainder
    end = start + chunk_size
return [start, end]
```
All quantities are non-negative integers, so `Nat` with `/` and `%` is an
exact translation.  The returned pair is the half-open range `[start, end)`.
-/

def split_indexes (n_files rank size : Nat) : Nat × Nat :=
  let chunk_size := n_files / size
  let remainder := n_files % size
  if rank < remainder then
    (rank * (chunk_size + 1), rank * (chunk_size + 1) + chunk_size + 1)
  else
    (rank * chunk_size + remainder, rank * chunk_size + remainder + chunk_size)

/-- Closed form for the boundaries of the partition: rank `k`'s range starts
at `k * (n / size) + min k (n % size)`. -/
def partBound (n_files size k : Nat) : Nat :=
  k * (n_files / size) + min k (n_files % size)

/-! ## Frame catalog (`get_filenames` / `natural_sort_key`, analysis.py lines 194-201)

Python:
```
def get_filenames(dir_path):
    files = [f for f in os.listdir(dir_path) if os.path.isfile(os.path.join(dir_path, f))]
    return sorted(files, key=natural_sort_key)

def natural_sort_key(s):
    return [int(text) if text.isdigit() else text.lower() for text in re.split(r'(\d+)', s)]
```
-/

/-- Numeric value of a run of decimal digit characters, as Python's `int`. -/
def digitsToNat (ds : List Char) : Nat :=
  ds.foldl (fun acc c => acc * 10 + (c.toNat - 48)) 0

/-- Lowercased string built from a character run, as Python's `str.lower`
(modelled on the ASCII letters). -/
def lowerStr (cs : List Char) : String :=
  String.mk (cs.map Char.toLower)

def notDigit (c : Char) : Bool := !c.isDigit

/-- Translation of `re.split(r'(\d+)', s)` combined with the comprehension
`[int(t) if t.isdigit() else t.lower() for t in ...]`: the character list is
cut into maximal runs; each digit run becomes `Sum.inr` of its numeric value,
the (possibly empty) non-digit text before it becomes `Sum.inl` of its
lowercased text, and a final (possibly empty) non-digit run closes the list.
Digits are the ASCII digits matched by the pattern.  The fuel argument only
bounds the recursion: every recursive call consumes at least the one-character
head of a digit run, so `cs.length + 1` steps always suffice. -/
def natKeyAux : Nat → List Char → List (String ⊕ Nat)
  | 0, _ => []
  | fuel + 1, cs =>
    match cs.dropWhile notDigit with
    | [] => [Sum.inl (lowerStr (cs.takeWhile notDigit))]
    | d :: t =>
      Sum.inl (lowerStr (cs.takeWhile notDigit)) ::
        Sum.inr (digitsToNat ((d :: t).takeWhile Char.isDigit)) ::
          natKeyAux fuel ((d :: t).dropWhile Char.isDigit)

/-- Translation of `natural_sort_key`. -/
def natural_sort_key (s : String) : List (String ⊕ Nat) :=
  natKeyAux (s.data.length + 1) s.data

/-- Shape invariant of every natural-sort key: a non-empty alternation
`[inl, inr, inl, inr, ..., inl]` — strings at even positions, integers at odd
positions. -/
inductive AltKey : List (String ⊕ Nat) → Prop
  | single (s : String) : AltKey [Sum.inl s]
  | cons (s : String) (m : Nat) (l : List (String ⊕ Nat)) :
      AltKey l → AltKey (Sum.inl s :: Sum.inr m :: l)

/-- Three-way comparison derived from a linear order, mirroring how Python
decides `a < b`, then `a > b`, else equal. -/
def cmpO {α : Type} [LinearOrder α] (a b : α) : Ordering :=
  if a < b then Ordering.lt else if b < a then Ordering.gt else Ordering.eq

/-- Generic total lexicographic comparison of two lists from an element
comparison: the first non-equal aligned pair decides, a list that runs out
first is smaller. -/
def cmpList {α : Type} (c : α → α → Ordering) : List α → List α → Ordering
  | [], [] => Ordering.eq
  | [], _ :: _ => Ordering.lt
  | _ :: _, [] => Ordering.gt
  | a :: l1, b :: l2 =>
    match c a b with
    | Ordering.eq => cmpList c l1 l2
    | o => o

/-- Python's character comparison: by Unicode code point. -/
def charCmp (c d : Char) : Ordering := cmpO c.toNat d.toNat

/-- Python's string comparison: lexicographic by code point. -/
def strCmp (a b : String) : Ordering := cmpList charCmp a.data b.data

/-- Comparison of two key elements, as Python performs it inside a list
comparison: two strings or two integers compare by their order; comparing a
string with an integer raises TypeError, modelled as `none`. -/
def pyCmpElem : String ⊕ Nat → String ⊕ Nat → Option Ordering
  | Sum.inl a, Sum.inl b => some (strCmp a b)
  | Sum.inr a, Sum.inr b => some (cmpO a b)
  | _, _ => none

/-- Python's lexicographic list comparison on keys: walk the two lists in
step; the first non-equal pair of elements decides; a list that runs out
first is smaller; a TypeError (`none`) at the deciding position aborts the
comparison. -/
def pyCmpKey : List (String ⊕ Nat) → List (String ⊕ Nat) → Option Ordering
  | [], [] => some Ordering.eq
  | [], _ :: _ => some Ordering.lt
  | _ :: _, [] => some Ordering.gt
  | a :: l1, b :: l2 =>
    match pyCmpElem a b with
    | none => none
    | some Ordering.eq => pyCmpKey l1 l2
    | some o => some o

/-- Zip-compatibility of two element lists: every aligned pair of elements
has a defined comparison.  Any two natural-sort keys are compatible, which is
why Python's sort never raises (claim C10). -/
inductive Compat : List (String ⊕ Nat) → List (String ⊕ Nat) → Prop
  | nil_left (l : List (String ⊕ Nat)) : Compat [] l
  | nil_right (l : List (String ⊕ Nat)) : Compat l []
  | cons {a b : String ⊕ Nat} {l1 l2 : List (String ⊕ Nat)} :
      (pyCmpElem a b).isSome → Compat l1 l2 → Compat (a :: l1) (b :: l2)

/-- Key-based "not greater" test driving the sort; with defined comparisons
this is exactly `natural_sort_key(a) <= natural_sort_key(b)` in Python.  The
`none` (TypeError) branch never arises for real keys (claim C10). -/
def keyLE (a b : String) : Bool :=
  match pyCmpKey (natural_sort_key a) (natural_sort_key b) with
  | some Ordering.gt => false
  | some _ => true
  | none => false

/-- Stable insertion of a name into a key-sorted list: the name goes in front
of the first entry it is not greater than. -/
def insertSorted (a : String) : List String → List String
  | [] => [a]
  | b :: l => if keyLE a b then a :: b :: l else b :: insertSorted a l

/-- Model of Python's `sorted(files, key=natural_sort_key)`: a stable
comparison sort realizing the same ordering contract. -/
def sortFiles : List String → List String
  | [] => []
  | a :: l => insertSorted a (sortFiles l)

/-- One entry of a directory listing: its name plus whether
`os.path.isfile` holds for it (regular file, as opposed to a subdirectory). -/
structure DirEntry where
  name : String
  isFile : Bool
deriving DecidableEq

/-- Spec-level error taxonomy for the catalog: the error propagating out of
`os.listdir` when the directory is unreadable. -/
inductive CatalogError where
  | unreadable
deriving DecidableEq

/-- Translation of `get_filenames`: an unreadable directory (modelled as
`none`) fails; otherwise the names of the regular-file entries are returned
in natural-sort order. -/
def get_filenames (dir : Option (List DirEntry)) : Except CatalogError (List String) :=
  match dir with
  | none => Except.error CatalogError.unreadable
  | some entries =>
    Except.ok (sortFiles ((entries.filter (fun e => e.isFile)).map (fun e => e.name)))

/-! ## Site occupancy classifier (`performWS`, analysis.py lines 118-178)

The source applies OVITO's `WignerSeitzAnalysisModifier` (reference loaded
from `REFERENCE_FILE`), reads the resulting `Occupancy` particle property,
selects `occupancies == 0` on one clone and `occupancies == 2` on another,
applies `InvertSelectionModifier` followed by `DeleteSelectedModifier`
(which together keep exactly the selected records), and exports each
survivor's identifier and position.  The modifier itself is an external
library call; its assignment of current atoms to reference sites is
modelled from the specification (nearest reference site under the
periodic-boundary-aware distance of the frame's box). -/

/-- Position vector: a 3D point with exact rational coordinates standing in
for the source's real coordinates. -/
structure Vec3 where
  x : Rat
  y : Rat
  z : Rat
deriving DecidableEq

/-- Simulation cell of a frame: axis-aligned min/max bounds with per-axis
periodic flags (the frame's box header). -/
structure SimBox where
  xlo : Rat
  xhi : Rat
  ylo : Rat
  yhi : Rat
  zlo : Rat
  zhi : Rat
  px : Bool
  py : Bool
  pz : Bool
deriving DecidableEq

/-- One atom of a current frame: identifier, position and type. -/
structure Atom where
  id : Nat
  pos : Vec3
  type : Nat
deriving DecidableEq

/-- Modelled from the spec: periodic-boundary-aware squared displacement
along one axis.  Under a periodic flag the nearest image among the cell and
its two neighbour images is taken (the minimum-image convention for in-cell
coordinates); otherwise the plain squared difference. -/
def axisSq (periodic : Bool) (lo hi a b : Rat) : Rat :=
  let d := a - b
  let len := hi - lo
  if periodic then min (min (d * d) ((d - len) * (d - len))) ((d + len) * (d + len))
  else d * d

/-- Modelled from the spec: squared periodic distance between two positions
under the frame's box. -/
def sqDist (box : SimBox) (p q : Vec3) : Rat :=
  axisSq box.px box.xlo box.xhi p.x q.x + axisSq box.py box.ylo box.yhi p.y q.y +
    axisSq box.pz box.zlo box.zhi p.z q.z

/-- Modelled from the spec: the Wigner-Seitz site search — index and squared
distance of the reference site nearest to `p`, the lowest index winning
ties; `none` only for an empty reference. -/
def bestSite (box : SimBox) (p : Vec3) : List Vec3 → Option (Nat × Rat)
  | [] => none
  | s :: rest =>
    match bestSite box p rest with
    | none => some (0, sqDist box p s)
    | some (j, dj) =>
      if sqDist box p s ≤ dj then some (0, sqDist box p s) else some (j + 1, dj)

/-- Modelled from the spec: the reference-site index the current atom at `p`
is assigned to. -/
def assignSite (box : SimBox) (sites : List Vec3) (p : Vec3) : Nat :=
  match bestSite box p sites with
  | none => 0
  | some (j, _) => j

/-- Modelled from the spec: per-site occupancy — the number of current atoms
assigned to reference site `j` (the `Occupancy` particle property the
modifier attaches to each reference site). -/
def occupancy (box : SimBox) (sites : List Vec3) (atoms : List Atom) (j : Nat) : Nat :=
  (atoms.filter (fun a => assignSite box sites a.pos == j)).length

/-- Translation of the vacancy branch of `performWS`: select the reference
sites with `Occupancy == 0` (invert-then-delete keeps exactly the selected
records) and export each such site's identifier (its index) and position —
no current atom occupies a vacancy, so the site itself is reported. -/
def ws_vac_export (box : SimBox) (sites : List Vec3) (atoms : List Atom) :
    List (Nat × Vec3) :=
  ((List.range sites.length).filter (fun j => occupancy box sites atoms j == 0)).map
    (fun j => (j, sites.getD j ⟨0, 0, 0⟩))

/-- Translation of the self-interstitial branch of `performWS`: keep exactly
the records with `Occupancy == 2`; per the spec both atoms assigned to an
occupancy-2 site are reported, each with its identifier and position. -/
def ws_sia_export (box : SimBox) (sites : List Vec3) (atoms : List Atom) : List Atom :=
  atoms.filter (fun a => occupancy box sites atoms (assignSite box sites a.pos) == 2)

/-! ## Structural defect extractor (`performDXA`, analysis.py lines 93-116) -/

/-- One atom as seen by the DXA stage: identifier, position, per-atom energy
(the `c_peratom` column) and the cluster label produced by the
`DislocationAnalysisModifier`. -/
structure DXAAtom where
  id : Nat
  pos : Vec3
  peratom : Rat
  cluster : Nat
deriving DecidableEq

/-- Translation of the selection expression `Cluster == 1` in `performDXA`. -/
def dxa_selection (a : DXAAtom) : Bool := a.cluster == 1

/-- `DeleteSelectedModifier`: drop the selected records, keep the rest. -/
def deleteSelected {α : Type} (sel : α → Bool) (l : List α) : List α :=
  l.filter (fun x => !(sel x))

/-- Modelled from the spec: the DXA cluster label denoting a perfect
("normal") local BCC environment; the selection expression of `performDXA`
identifies it with cluster `1`. -/
def normalClusterLabel : Nat := 1

/-- Translation of `performDXA`'s atom filtering: select `Cluster == 1`,
delete the selected atoms, and export the remaining (defect-core) atoms for
the frame's timestep. -/
def performDXA_export (atoms : List DXAAtom) : List DXAAtom :=
  deleteSelected dxa_selection atoms

/-! ## Worker control flow (`process_file` / `main`, analysis.py lines 48-91) -/

/-- Fixed reference-configuration path built once at module scope
(`REFERENCE_FILE` in the source, under `000_data/02_minimize/dump`). -/
def REFERENCE_FILE : String := "edge_dislo_100_60_40_dump"

/-- Observable side effects of the per-frame analysis. -/
inductive AnalysisEvent where
  | loadFrame (path : String)
  | loadReference (path : String)
  | exportFile (category : String) (frame : String)
deriving DecidableEq

/-- Side-effect trace of one `performDXA` call on the given frame: the two
export files (`dxa_<timestep>` and `dxa_atoms_<timestep>`, tagged here by the
frame processed). -/
def performDXA_events (frame : String) : List AnalysisEvent :=
  [AnalysisEvent.exportFile "dxa" frame, AnalysisEvent.exportFile "dxa_atoms" frame]

/-- Side-effect trace of one `performWS` call on the given frame: the
Wigner-Seitz modifier's reference `FileSource` is created and loaded inside
the function body (`wsModifier.reference.load(REFERENCE_FILE)`), so every
call re-loads the reference file; then the two export files are written. -/
def performWS_events (frame : String) : List AnalysisEvent :=
  [AnalysisEvent.loadReference REFERENCE_FILE,
   AnalysisEvent.exportFile "ws_vac" frame,
   AnalysisEvent.exportFile "ws_sia" frame]

/-- Side-effect trace of `process_file` over a chunk: each frame is imported
and then handed to `performDXA` and `performWS` in order. -/
def process_file_events (dump_chunk : List String) : List AnalysisEvent :=
  (dump_chunk.map (fun f =>
    AnalysisEvent.loadFrame f :: (performDXA_events f ++ performWS_events f))).flatten

def isRefLoad : AnalysisEvent → Bool
  | AnalysisEvent.loadReference _ => true
  | _ => false

/-- The reference-load events of a trace. -/
def referenceLoads (evs : List AnalysisEvent) : List AnalysisEvent :=
  evs.filter isRefLoad

/-- Frame-granularity failure kinds of the spec's error taxonomy that can
arise inside the per-frame analysis. -/
inductive FrameError where
  | classificationError
  | exportError
deriving DecidableEq

/-- Control-flow model of `process_file` over its chunk: the loop body has no
exception handler, so the first failing frame raises and the remaining
frames of the chunk are never reached.  Each frame is paired with its
outcome (`none` = processes cleanly, `some e` = raises `e`); the result is
the list of frames actually processed, plus the error that escaped, if
any. -/
def process_file_run : List (String × Option FrameError) → List String × Option FrameError
  | [] => ([], none)
  | (name, none) :: rest =>
    let r := process_file_run rest
    (name :: r.1, r.2)
  | (_, some e) :: _ => ([], some e)

/-- Model of the tail of `main`: `comm.Barrier()` is reached only when
`process_file` returns normally — an uncaught per-frame exception propagates
out of `main` before the barrier call. -/
def worker_reaches_barrier (chunk : List (String × Option FrameError)) : Bool :=
  (process_file_run chunk).2.isNone

theorem split_indexes_fst (n rank size : Nat) :
    (split_indexes n rank size).1 = partBound n size rank := by
  have hm : rank * (n / size + 1) = rank * (n / size) + rank := by ring
  simp only [split_indexes, partBound]
  by_cases h : rank < n % size
  · simp only [if_pos h]
    rw [Nat.min_eq_left (Nat.le_of_lt h)]
    omega
  · simp only [if_neg h]
    rw [Nat.min_eq_right (Nat.le_of_not_lt h)]

theorem split_indexes_snd (n rank size : Nat) :
    (split_indexes n rank size).2 = partBound n size (rank + 1) := by
  have hm : rank * (n / size + 1) = rank * (n / size) + rank := by ring
  have hm2 : (rank + 1) * (n / size) = rank * (n / size) + n / size := by ring
  simp only [split_indexes, partBound]
  by_cases h : rank < n % size
  · simp only [if_pos h]
    rw [Nat.min_eq_left (Nat.succ_le_of_lt h)]
    omega
  · simp only [if_neg h]
    rw [Nat.min_eq_right (Nat.le_trans (Nat.le_of_not_lt h) (Nat.le_succ rank))]
    omega

theorem partBound_mono (n size : Nat) {k k' : Nat} (h : k ≤ k') :
    partBound n size k ≤ partBound n size k' := by
  unfold partBound
  exact Nat.add_le_add (Nat.mul_le_mul_right _ h) (min_le_min h le_rfl)

theorem partBound_zero (n size : Nat) : partBound n size 0 = 0 := by
  simp [partBound]

theorem partBound_size (n size : Nat) (hsize : 0 < size) :
    partBound n size size = n := by
  unfold partBound
  rw [Nat.min_eq_right (Nat.le_of_lt (Nat.mod_lt n hsize))]
  exact Nat.div_add_mod n size

/-- Locating an index inside a monotone sequence of boundaries. -/
theorem exists_block (f : Nat → Nat) (i : Nat) :
    ∀ m, f 0 ≤ i → i < f m → ∃ k, k < m ∧ f k ≤ i ∧ i < f (k + 1) := by
  intro m
  induction m with
  | zero => intro h0 hm; exact absurd hm (Nat.not_lt_of_le h0)
  | succ m ih =>
    intro h0 hm
    by_cases hc : i < f m
    · obtain ⟨k, hk, h1, h2⟩ := ih h0 hc
      exact ⟨k, Nat.lt_succ_of_lt hk, h1, h2⟩
    · exact ⟨m, Nat.lt_succ_self m, Nat.le_of_not_lt hc, hm⟩

/-- Claim C1: for every `n ≥ 0`, `size ≥ 1` and `0 ≤ rank < size`, the work
partitioner returns the half-open range `[start, end)` in which the first
`n % size` ranks receive `n / size + 1` indices and the rest `n / size`
indices; the ranges are contiguous in rank order, they partition `[0, n)`
exactly (every index below `n` belongs to exactly one rank's range), and any
two range sizes differ by at most 1 — including when `n < size` and when
`size = 1`. -/
theorem split_indexes_partition (n size : Nat) (hsize : 0 < size) :
    (∀ rank, rank < size →
      (split_indexes n rank size).1 ≤ (split_indexes n rank size).2 ∧
      (split_indexes n rank size).2 - (split_indexes n rank size).1 =
        (if rank < n % size then n / size + 1 else n / size)) ∧
    (split_indexes n 0 size).1 = 0 ∧
    (split_indexes n (size - 1) size).2 = n ∧
    (∀ rank, rank + 1 < size →
      (split_indexes n rank size).2 = (split_indexes n (rank + 1) size).1) ∧
    (∀ i, i < n → ∃! rank, rank < size ∧
      (split_indexes n rank size).1 ≤ i ∧ i < (split_indexes n rank size).2) ∧
    (∀ r1 r2, r1 < size → r2 < size →
      (split_indexes n r1 size).2 - (split_indexes n r1 size).1 ≤
        ((split_indexes n r2 size).2 - (split_indexes n r2 size).1) + 1) := by
  have hsize_eq : ∀ rank,
      (split_indexes n rank size).2 - (split_indexes n rank size).1 =
        (if rank < n % size then n / size + 1 else n / size) := by
    intro rank
    rw [split_indexes_fst, split_indexes_snd]
    unfold partBound
    generalize n / size = q
    generalize n % size = r
    have hm : (rank + 1) * q = rank * q + q := by ring
    by_cases h : rank < r
    · rw [if_pos h, Nat.min_eq_left (Nat.succ_le_of_lt h),
        Nat.min_eq_left (Nat.le_of_lt h)]
      omega
    · rw [if_neg h, Nat.min_eq_right (Nat.le_of_not_lt h),
        Nat.min_eq_right (Nat.le_trans (Nat.le_of_not_lt h) (Nat.le_succ rank))]
      omega
  refine ⟨?_, ?_, ?_, ?_, ?_, ?_⟩
  · intro rank _
    refine ⟨?_, hsize_eq rank⟩
    rw [split_indexes_fst, split_indexes_snd]
    exact partBound_mono n size (Nat.le_succ rank)
  · rw [split_indexes_fst]
    exact partBound_zero n size
  · rw [split_indexes_snd, Nat.sub_add_cancel hsize]
    exact partBound_size n size hsize
  · intro rank _
    rw [split_indexes_snd, split_indexes_fst]
  · intro i hi
    have h0 : partBound n size 0 ≤ i := by rw [partBound_zero]; exact Nat.zero_le i
    have hm : i < partBound n size size := by rw [partBound_size n size hsize]; exact hi
    obtain ⟨k, hk, h1, h2⟩ := exists_block (partBound n size) i size h0 hm
    refine ⟨k, ⟨hk, ?_, ?_⟩, ?_⟩
    · rw [split_indexes_fst]; exact h1
    · rw [split_indexes_snd]; exact h2
    · intro k' ⟨hk', h1', h2'⟩
      rw [split_indexes_fst] at h1'
      rw [split_indexes_snd] at h2'
      by_contra hne
      rcases Nat.lt_or_ge k' k with hlt | hge
      · have : partBound n size (k' + 1) ≤ partBound n size k :=
          partBound_mono n size (Nat.succ_le_of_lt hlt)
        omega
      · have hlt' : k < k' := Nat.lt_of_le_of_ne hge (fun h => hne h.symm)
        have : partBound n size (k + 1) ≤ partBound n size k' :=
          partBound_mono n size (Nat.succ_le_of_lt hlt')
        omega
  · intro r1 r2 _ _
    rw [hsize_eq r1, hsize_eq r2]
    split <;> split <;> omega

/-- Witness for C1 at the spec's end-to-end scenario: 37 frames over 4
workers; rank 0's range starts at 0. -/
theorem split_indexes_partition_witness :
    0 < 4 ∧ (split_indexes 37 0 4).1 = 0 :=
  ⟨by decide, (split_indexes_partition 37 4 (by decide)).2.1⟩

/-! ## Order-theoretic facts about the natural-sort comparison -/

theorem cmpO_self {α : Type} [LinearOrder α] (a : α) : cmpO a a = Ordering.eq := by
  simp [cmpO]

theorem cmpO_eq_iff {α : Type} [LinearOrder α] {a b : α} :
    cmpO a b = Ordering.eq ↔ a = b := by
  unfold cmpO
  split_ifs with h1 h2
  · exact iff_of_false (by simp) (ne_of_lt h1)
  · exact iff_of_false (by simp) (ne_of_gt h2)
  · exact iff_of_true rfl (le_antisymm (le_of_not_lt h2) (le_of_not_lt h1))

theorem cmpO_lt_iff {α : Type} [LinearOrder α] {a b : α} :
    cmpO a b = Ordering.lt ↔ a < b := by
  unfold cmpO
  split_ifs with h1 h2
  · exact iff_of_true rfl h1
  · exact iff_of_false (by simp) h1
  · exact iff_of_false (by simp) h1

theorem cmpO_swap {α : Type} [LinearOrder α] (a b : α) :
    cmpO b a = (cmpO a b).swap := by
  rcases lt_trichotomy a b with h | h | h
  · simp [cmpO, h, asymm h, Ordering.swap]
  · subst h; simp [cmpO, lt_irrefl, Ordering.swap]
  · simp [cmpO, h, asymm h, Ordering.swap]

theorem cmpO_lt_trans {α : Type} [LinearOrder α] {a b c : α}
    (h1 : cmpO a b = Ordering.lt) (h2 : cmpO b c = Ordering.lt) :
    cmpO a c = Ordering.lt :=
  cmpO_lt_iff.mpr (lt_trans (cmpO_lt_iff.mp h1) (cmpO_lt_iff.mp h2))

theorem cmpList_eq_iff {α : Type} {c : α → α → Ordering}
    (hc : ∀ a b, c a b = Ordering.eq ↔ a = b) :
    ∀ l1 l2, cmpList c l1 l2 = Ordering.eq ↔ l1 = l2 := by
  intro l1
  induction l1 with
  | nil =>
    intro l2
    cases l2 with
    | nil => simp [cmpList]
    | cons b t => simp [cmpList]
  | cons a t1 ih =>
    intro l2
    cases l2 with
    | nil => simp [cmpList]
    | cons b t2 =>
      simp only [cmpList]
      cases hab : c a b with
      | eq =>
        have hb : a = b := (hc a b).mp hab
        subst hb
        simp [ih t2]
      | lt =>
        refine iff_of_false (by simp) ?_
        intro h
        simp only [List.cons.injEq] at h
        rw [h.1, (hc b b).mpr rfl] at hab
        exact absurd hab (by simp)
      | gt =>
        refine iff_of_false (by simp) ?_
        intro h
        simp only [List.cons.injEq] at h
        rw [h.1, (hc b b).mpr rfl] at hab
        exact absurd hab (by simp)

theorem cmpList_swap {α : Type} {c : α → α → Ordering}
    (hc : ∀ a b, c b a = (c a b).swap) :
    ∀ l1 l2, cmpList c l2 l1 = (cmpList c l1 l2).swap := by
  intro l1
  induction l1 with
  | nil =>
    intro l2
    cases l2 <;> simp [cmpList, Ordering.swap]
  | cons a t1 ih =>
    intro l2
    cases l2 with
    | nil => simp [cmpList, Ordering.swap]
    | cons b t2 =>
      simp only [cmpList, hc a b]
      cases hab : c a b <;> simp [Ordering.swap, ih t2]

theorem cmpList_lt_trans {α : Type} {c : α → α → Ordering}
    (hceq : ∀ a b, c a b = Ordering.eq ↔ a = b)
    (hclt : ∀ a b d, c a b = Ordering.lt → c b d = Ordering.lt → c a d = Ordering.lt) :
    ∀ l1 l2 l3, cmpList c l1 l2 = Ordering.lt → cmpList c l2 l3 = Ordering.lt →
      cmpList c l1 l3 = Ordering.lt := by
  intro l1
  induction l1 with
  | nil =>
    intro l2 l3 h12 h23
    cases l3 with
    | nil =>
      cases l2 with
      | nil => simp [cmpList] at h12
      | cons b t2 => simp [cmpList] at h23
    | cons d t3 => simp [cmpList]
  | cons a t1 ih =>
    intro l2 l3 h12 h23
    cases l2 with
    | nil => simp [cmpList] at h12
    | cons b t2 =>
      cases l3 with
      | nil => simp [cmpList] at h23
      | cons d t3 =>
        simp only [cmpList] at h12 h23 ⊢
        cases hab : c a b with
        | gt => simp [hab] at h12
        | lt =>
          cases hbd : c b d with
          | lt => simp [hclt a b d hab hbd]
          | eq =>
            have hb : b = d := (hceq b d).mp hbd
            subst hb
            simp [hab]
          | gt => simp [hbd] at h23
        | eq =>
          have hb : a = b := (hceq a b).mp hab
          subst hb
          simp only [hab] at h12
          cases had : c a d with
          | lt => simp [had]
          | eq =>
            have hd : a = d := (hceq a d).mp had
            subst hd
            simp only [had] at h23 ⊢
            exact ih t2 t3 h12 h23
          | gt => simp [had] at h23

theorem charCmp_eq_iff {c d : Char} : charCmp c d = Ordering.eq ↔ c = d := by
  unfold charCmp
  rw [cmpO_eq_iff]
  constructor
  · intro h
    rw [← Char.ofNat_toNat c, ← Char.ofNat_toNat d, h]
  · intro h
    rw [h]

theorem charCmp_swap (c d : Char) : charCmp d c = (charCmp c d).swap :=
  cmpO_swap c.toNat d.toNat

theorem charCmp_lt_trans {c d e : Char} (h1 : charCmp c d = Ordering.lt)
    (h2 : charCmp d e = Ordering.lt) : charCmp c e = Ordering.lt :=
  cmpO_lt_trans h1 h2

theorem strCmp_eq_iff {a b : String} : strCmp a b = Ordering.eq ↔ a = b := by
  unfold strCmp
  rw [cmpList_eq_iff (fun c d => charCmp_eq_iff)]
  constructor
  · intro h
    cases a
    cases b
    simp only at h
    rw [h]
  · intro h
    rw [h]

theorem strCmp_swap (a b : String) : strCmp b a = (strCmp a b).swap :=
  cmpList_swap (fun c d => charCmp_swap c d) a.data b.data

theorem strCmp_lt_trans {a b c : String} (h1 : strCmp a b = Ordering.lt)
    (h2 : strCmp b c = Ordering.lt) : strCmp a c = Ordering.lt :=
  cmpList_lt_trans (fun _ _ => charCmp_eq_iff)
    (fun _ _ _ hx hy => charCmp_lt_trans hx hy) a.data b.data c.data h1 h2

theorem pyCmpElem_eq_iff {x y : String ⊕ Nat} :
    pyCmpElem x y = some Ordering.eq ↔ x = y := by
  cases x with
  | inl a =>
    cases y with
    | inl b => simp [pyCmpElem, strCmp_eq_iff]
    | inr m => simp [pyCmpElem]
  | inr n =>
    cases y with
    | inl b => simp [pyCmpElem]
    | inr m => simp [pyCmpElem, cmpO_eq_iff]

theorem pyCmpElem_swap (x y : String ⊕ Nat) :
    pyCmpElem y x = (pyCmpElem x y).map Ordering.swap := by
  cases x with
  | inl a =>
    cases y with
    | inl b =>
      show some (strCmp b a) = some ((strCmp a b).swap)
      rw [strCmp_swap a b]
    | inr m => simp [pyCmpElem]
  | inr n =>
    cases y with
    | inl b => simp [pyCmpElem]
    | inr m =>
      show some (cmpO m n) = some ((cmpO n m).swap)
      rw [cmpO_swap n m]

theorem pyCmpElem_lt_trans {x y z : String ⊕ Nat}
    (h1 : pyCmpElem x y = some Ordering.lt) (h2 : pyCmpElem y z = some Ordering.lt) :
    pyCmpElem x z = some Ordering.lt := by
  cases x with
  | inl a =>
    cases y with
    | inl b =>
      cases z with
      | inl c =>
        simp only [pyCmpElem, Option.some.injEq] at h1 h2 ⊢
        exact strCmp_lt_trans h1 h2
      | inr m => simp [pyCmpElem] at h2
    | inr m => simp [pyCmpElem] at h1
  | inr n =>
    cases y with
    | inl b => simp [pyCmpElem] at h1
    | inr m =>
      cases z with
      | inl c => simp [pyCmpElem] at h2
      | inr k =>
        simp only [pyCmpElem, Option.some.injEq] at h1 h2 ⊢
        exact cmpO_lt_trans h1 h2

theorem pyCmpKey_eq_iff :
    ∀ l1 l2 : List (String ⊕ Nat), pyCmpKey l1 l2 = some Ordering.eq ↔ l1 = l2 := by
  intro l1
  induction l1 with
  | nil =>
    intro l2
    cases l2 with
    | nil => simp [pyCmpKey]
    | cons b t => simp [pyCmpKey]
  | cons a t1 ih =>
    intro l2
    cases l2 with
    | nil => simp [pyCmpKey]
    | cons b t2 =>
      simp only [pyCmpKey]
      cases hab : pyCmpElem a b with
      | none =>
        refine iff_of_false (by simp) ?_
        intro h
        simp only [List.cons.injEq] at h
        rw [h.1, pyCmpElem_eq_iff.mpr rfl] at hab
        exact absurd hab (by simp)
      | some o =>
        cases o with
        | eq =>
          have hb : a = b := pyCmpElem_eq_iff.mp hab
          subst hb
          simp [ih t2]
        | lt =>
          refine iff_of_false (by simp) ?_
          intro h
          simp only [List.cons.injEq] at h
          rw [h.1, pyCmpElem_eq_iff.mpr rfl] at hab
          exact absurd hab (by simp)
        | gt =>
          refine iff_of_false (by simp) ?_
          intro h
          simp only [List.cons.injEq] at h
          rw [h.1, pyCmpElem_eq_iff.mpr rfl] at hab
          exact absurd hab (by simp)

theorem pyCmpKey_swap :
    ∀ l1 l2 : List (String ⊕ Nat), pyCmpKey l2 l1 = (pyCmpKey l1 l2).map Ordering.swap := by
  intro l1
  induction l1 with
  | nil =>
    intro l2
    cases l2 <;> simp [pyCmpKey, Ordering.swap]
  | cons a t1 ih =>
    intro l2
    cases l2 with
    | nil => simp [pyCmpKey, Ordering.swap]
    | cons b t2 =>
      simp only [pyCmpKey, pyCmpElem_swap a b]
      cases hab : pyCmpElem a b with
      | none => simp
      | some o => cases o <;> simp [Ordering.swap, ih t2]

theorem pyCmpKey_lt_trans :
    ∀ l1 l2 l3 : List (String ⊕ Nat), pyCmpKey l1 l2 = some Ordering.lt →
      pyCmpKey l2 l3 = some Ordering.lt → pyCmpKey l1 l3 = some Ordering.lt := by
  intro l1
  induction l1 with
  | nil =>
    intro l2 l3 h12 h23
    cases l3 with
    | nil =>
      cases l2 with
      | nil => simp [pyCmpKey] at h12
      | cons b t2 => simp [pyCmpKey] at h23
    | cons d t3 => simp [pyCmpKey]
  | cons a t1 ih =>
    intro l2 l3 h12 h23
    cases l2 with
    | nil => simp [pyCmpKey] at h12
    | cons b t2 =>
      cases l3 with
      | nil => simp [pyCmpKey] at h23
      | cons d t3 =>
        simp only [pyCmpKey] at h12 h23 ⊢
        cases hab : pyCmpElem a b with
        | none => simp [hab] at h12
        | some o1 =>
          cases o1 with
          | gt => simp [hab] at h12
          | lt =>
            cases hbd : pyCmpElem b d with
            | none => simp [hbd] at h23
            | some o2 =>
              cases o2 with
              | gt => simp [hbd] at h23
              | lt => simp [pyCmpElem_lt_trans hab hbd]
              | eq =>
                have hb : b = d := pyCmpElem_eq_iff.mp hbd
                subst hb
                simp [hab]
          | eq =>
            have hb : a = b := pyCmpElem_eq_iff.mp hab
            subst hb
            simp only [hab] at h12
            cases had : pyCmpElem a d with
            | none => simp [had] at h23
            | some o2 =>
              cases o2 with
              | gt => simp [had] at h23
              | lt => simp [had]
              | eq =>
                have hd : a = d := pyCmpElem_eq_iff.mp had
                subst hd
                simp only [had] at h23 ⊢
                exact ih t2 t3 h12 h23

theorem pyCmpKey_isSome {l1 l2 : List (String ⊕ Nat)} (h : Compat l1 l2) :
    (pyCmpKey l1 l2).isSome = true := by
  induction h with
  | nil_left l => cases l <;> simp [pyCmpKey]
  | nil_right l => cases l <;> simp [pyCmpKey]
  | cons hab hc ih =>
    rename_i a b t1 t2
    simp only [pyCmpKey]
    cases hx : pyCmpElem a b with
    | none => rw [hx] at hab; exact absurd hab (by simp)
    | some o =>
      cases o with
      | lt => simp
      | gt => simp
      | eq => simpa using ih

theorem dropWhile_head_false {α : Type} (p : α → Bool) :
    ∀ (cs : List α) (d : α) (t : List α), cs.dropWhile p = d :: t → p d = false := by
  intro cs
  induction cs with
  | nil => intro d t h; simp [List.dropWhile] at h
  | cons c cs ih =>
    intro d t h
    by_cases hc : p c
    · rw [List.dropWhile_cons_of_pos hc] at h
      exact ih d t h
    · rw [List.dropWhile_cons_of_neg hc] at h
      cases h
      exact Bool.of_not_eq_true hc

theorem altKey_natKeyAux :
    ∀ (fuel : Nat) (cs : List Char), cs.length < fuel → AltKey (natKeyAux fuel cs) := by
  intro fuel
  induction fuel with
  | zero => intro cs h; exact absurd h (Nat.not_lt_zero _)
  | succ fuel ih =>
    intro cs h
    cases hrest : cs.dropWhile notDigit with
    | nil =>
      simp only [natKeyAux, hrest]
      exact AltKey.single _
    | cons d t =>
      simp only [natKeyAux, hrest]
      refine AltKey.cons _ _ _ (ih _ ?_)
      have hd : notDigit d = false := dropWhile_head_false notDigit cs d t hrest
      have hd' : Char.isDigit d = true := by
        simpa [notDigit] using hd
      have hsub : (cs.dropWhile notDigit).length ≤ cs.length :=
        (List.dropWhile_sublist notDigit).length_le
      rw [hrest] at hsub
      have h1 : ((d :: t).dropWhile Char.isDigit).length ≤ t.length := by
        rw [List.dropWhile_cons_of_pos hd']
        exact (List.dropWhile_sublist Char.isDigit).length_le
      simp only [List.length_cons] at hsub
      omega

theorem altKey_natural_sort_key (s : String) : AltKey (natural_sort_key s) :=
  altKey_natKeyAux (s.data.length + 1) s.data (Nat.lt_succ_self _)

theorem altKey_getElem {l : List (String ⊕ Nat)} (h : AltKey l) :
    ∀ (i : Nat) (hi : i < l.length),
      (i % 2 = 0 → ∃ str, l[i] = Sum.inl str) ∧
      (i % 2 = 1 → ∃ m, l[i] = Sum.inr m) := by
  induction h with
  | single s =>
    intro i hi
    simp only [List.length_singleton] at hi
    interval_cases i
    simp
  | cons s m l hl ih =>
    intro i hi
    match i with
    | 0 => simp
    | 1 => simp
    | (k + 2) =>
      simp only [List.length_cons] at hi
      have hk : k < l.length := by omega
      have hmod : (k + 2) % 2 = k % 2 := Nat.add_mod_right k 2
      have := ih k hk
      simp only [List.getElem_cons_succ]
      rw [hmod]
      exact this

theorem compat_of_altKey {l1 l2 : List (String ⊕ Nat)} (h1 : AltKey l1) (h2 : AltKey l2) :
    Compat l1 l2 := by
  induction h1 generalizing l2 with
  | single s =>
    cases h2 with
    | single t => exact Compat.cons (by simp [pyCmpElem]) (Compat.nil_left _)
    | cons t m l hl => exact Compat.cons (by simp [pyCmpElem]) (Compat.nil_left _)
  | cons s m l hl ih =>
    cases h2 with
    | single t => exact Compat.cons (by simp [pyCmpElem]) (Compat.nil_right _)
    | cons t k l' hl' =>
      exact Compat.cons (by simp [pyCmpElem])
        (Compat.cons (by simp [pyCmpElem]) (ih hl'))

theorem keyCmp_isSome (a b : String) :
    (pyCmpKey (natural_sort_key a) (natural_sort_key b)).isSome = true :=
  pyCmpKey_isSome (compat_of_altKey (altKey_natural_sort_key a) (altKey_natural_sort_key b))

theorem keyLE_total (a b : String) : keyLE a b = true ∨ keyLE b a = true := by
  unfold keyLE
  have hs := keyCmp_isSome a b
  cases hab : pyCmpKey (natural_sort_key a) (natural_sort_key b) with
  | none => rw [hab] at hs; exact absurd hs (by simp)
  | some o =>
    cases o with
    | lt => left; rfl
    | eq => left; rfl
    | gt =>
      right
      rw [pyCmpKey_swap, hab]
      rfl

theorem keyLE_trans {a b c : String} (h1 : keyLE a b = true) (h2 : keyLE b c = true) :
    keyLE a c = true := by
  unfold keyLE at h1 h2 ⊢
  have hsab := keyCmp_isSome a b
  have hsbc := keyCmp_isSome b c
  have hsac := keyCmp_isSome a c
  cases hab : pyCmpKey (natural_sort_key a) (natural_sort_key b) with
  | none => rw [hab] at hsab; exact absurd hsab (by simp)
  | some o1 =>
    cases hbc : pyCmpKey (natural_sort_key b) (natural_sort_key c) with
    | none => rw [hbc] at hsbc; exact absurd hsbc (by simp)
    | some o2 =>
      rw [hab] at h1
      rw [hbc] at h2
      cases o1 with
      | gt => exact absurd h1 (by simp)
      | eq =>
        have hk : natural_sort_key a = natural_sort_key b := pyCmpKey_eq_iff _ _ |>.mp hab
        rw [hk, hbc]
        cases o2 with
        | gt => exact absurd h2 (by simp)
        | lt => rfl
        | eq => rfl
      | lt =>
        cases o2 with
        | gt => exact absurd h2 (by simp)
        | eq =>
          have hk : natural_sort_key b = natural_sort_key c := pyCmpKey_eq_iff _ _ |>.mp hbc
          rw [← hk, hab]
        | lt =>
          rw [pyCmpKey_lt_trans _ _ _ hab hbc]

theorem insertSorted_perm (a : String) :
    ∀ l : List String, (insertSorted a l).Perm (a :: l) := by
  intro l
  induction l with
  | nil => exact List.Perm.refl _
  | cons b t ih =>
    unfold insertSorted
    by_cases h : keyLE a b
    · rw [if_pos h]
    · rw [if_neg h]
      exact (List.Perm.cons b ih).trans (List.Perm.swap a b t)

theorem sortFiles_perm : ∀ l : List String, (sortFiles l).Perm l := by
  intro l
  induction l with
  | nil => exact List.Perm.refl _
  | cons a t ih =>
    unfold sortFiles
    exact (insertSorted_perm a (sortFiles t)).trans (List.Perm.cons a ih)

theorem insertSorted_pairwise (a : String) :
    ∀ l : List String, l.Pairwise (fun x y => keyLE x y = true) →
      (insertSorted a l).Pairwise (fun x y => keyLE x y = true) := by
  intro l
  induction l with
  | nil => intro _; exact List.pairwise_singleton _ a
  | cons b t ih =>
    intro hp
    rw [List.pairwise_cons] at hp
    unfold insertSorted
    by_cases h : keyLE a b
    · rw [if_pos h]
      rw [List.pairwise_cons]
      constructor
      · intro x hx
        rcases List.mem_cons.mp hx with hxb | hxt
        · rw [hxb]; exact h
        · exact keyLE_trans h (hp.1 x hxt)
      · rw [List.pairwise_cons]
        exact hp
    · rw [if_neg h]
      rw [List.pairwise_cons]
      constructor
      · intro x hx
        have hperm := insertSorted_perm a t
        rcases List.mem_cons.mp ((hperm.mem_iff).mp hx) with hxa | hxt
        · rw [hxa]
          rcases keyLE_total a b with h' | h'
          · exact absurd h' h
          · exact h'
        · exact hp.1 x hxt
      · exact ih hp.2

theorem sortFiles_pairwise :
    ∀ l : List String, (sortFiles l).Pairwise (fun x y => keyLE x y = true) := by
  intro l
  induction l with
  | nil => exact List.Pairwise.nil
  | cons a t ih =>
    unfold sortFiles
    exact insertSorted_pairwise a (sortFiles t) ih

/-- Claim C10: comparing the natural-sort keys of two filenames never raises
a type error: every key has strings at its even positions and integers at its
odd positions, so element-wise key comparison only ever compares a string
with a string or an integer with an integer, and the comparison of any two
keys is defined (sorting with this key is total and well-defined). -/
theorem natural_sort_key_comparison_safe (s t : String) (i : Nat)
    (hi : i < (natural_sort_key s).length) :
    (i % 2 = 0 → ∃ str, (natural_sort_key s)[i] = Sum.inl str) ∧
    (i % 2 = 1 → ∃ m, (natural_sort_key s)[i] = Sum.inr m) ∧
    (pyCmpKey (natural_sort_key s) (natural_sort_key t)).isSome = true :=
  ⟨(altKey_getElem (altKey_natural_sort_key s) i hi).1,
   (altKey_getElem (altKey_natural_sort_key s) i hi).2,
   keyCmp_isSome s t⟩

/-- Witness for C10 at two concrete filenames. -/
theorem natural_sort_key_comparison_safe_witness :
    0 < (natural_sort_key "frame_2").length ∧
    (pyCmpKey (natural_sort_key "frame_2") (natural_sort_key "frame_10")).isSome = true :=
  ⟨by decide, (natural_sort_key_comparison_safe "frame_2" "frame_10" 0 (by decide)).2.2⟩

/-- Claim C6: for every directory, the frame catalog returns the contained
filenames ordered by natural sort — names split into alternating non-digit /
digit runs, digit runs compared numerically, non-digit runs compared
lexicographically after lowercasing — and in particular
["frame_2", "frame_10", "frame_1"] sorts to ["frame_1", "frame_2", "frame_10"]. -/
theorem get_filenames_natural_sort :
    (∀ entries : List DirEntry, ∃ out,
      get_filenames (some entries) = Except.ok out ∧
      out.Perm ((entries.filter (fun e => e.isFile)).map (fun e => e.name)) ∧
      out.Pairwise (fun a b => keyLE a b = true)) ∧
    sortFiles ["frame_2", "frame_10", "frame_1"] = ["frame_1", "frame_2", "frame_10"] := by
  constructor
  · intro entries
    exact ⟨_, rfl, sortFiles_perm _, sortFiles_pairwise _⟩
  · decide

/-- Claim C8: the frame catalog fails with `CatalogError` when the directory
is unreadable; a readable directory with no files yields the empty sequence
(not an error); and exactly the regular-file entries are listed —
subdirectories are ignored. -/
theorem get_filenames_error_handling :
    get_filenames none = Except.error CatalogError.unreadable ∧
    get_filenames (some []) = Except.ok [] ∧
    (∀ entries : List DirEntry, ∃ out, get_filenames (some entries) = Except.ok out ∧
      (∀ s, s ∈ out ↔ ∃ e, e ∈ entries ∧ e.isFile = true ∧ e.name = s)) := by
  refine ⟨rfl, rfl, ?_⟩
  intro entries
  refine ⟨_, rfl, ?_⟩
  intro s
  rw [(sortFiles_perm _).mem_iff]
  simp only [List.mem_map, List.mem_filter]
  constructor
  · rintro ⟨e, ⟨he, hf⟩, hn⟩
    exact ⟨e, he, hf, hn⟩
  · rintro ⟨e, he, hf, hn⟩
    exact ⟨e, ⟨he, hf⟩, hn⟩

/-! ## Facts about the modelled Wigner-Seitz assignment -/

theorem bestSite_lt (box : SimBox) (p : Vec3) :
    ∀ sites : List Vec3, sites ≠ [] →
      ∃ j d, bestSite box p sites = some (j, d) ∧ j < sites.length := by
  intro sites
  induction sites with
  | nil => intro h; exact absurd rfl h
  | cons s rest ih =>
    intro _
    simp only [bestSite]
    cases hb : bestSite box p rest with
    | none => exact ⟨0, sqDist box p s, rfl, by simp⟩
    | some pair =>
      obtain ⟨j, dj⟩ := pair
      by_cases hle : sqDist box p s ≤ dj
      · refine ⟨0, sqDist box p s, ?_, by simp⟩
        show (if sqDist box p s ≤ dj then some (0, sqDist box p s)
          else some (j + 1, dj)) = some (0, sqDist box p s)
        rw [if_pos hle]
      · have hrest : rest ≠ [] := by
          intro hnil
          rw [hnil] at hb
          exact absurd hb (by simp [bestSite])
        obtain ⟨j', d', h1, h2⟩ := ih hrest
        rw [hb] at h1
        have hj : j = j' := congrArg Prod.fst ((Option.some.injEq _ _).mp h1)
        refine ⟨j + 1, dj, ?_, ?_⟩
        · show (if sqDist box p s ≤ dj then some (0, sqDist box p s)
            else some (j + 1, dj)) = some (j + 1, dj)
          rw [if_neg hle]
        · rw [List.length_cons]
          omega

theorem assignSite_lt (box : SimBox) (sites : List Vec3) (p : Vec3) (h : sites ≠ []) :
    assignSite box sites p < sites.length := by
  obtain ⟨j, d, hb, hj⟩ := bestSite_lt box p sites h
  unfold assignSite
  rw [hb]
  exact hj

theorem sum_filter_count {α : Type} (g : α → Nat) :
    ∀ (l : List α) (m : Nat), (∀ a ∈ l, g a < m) →
      (Finset.range m).sum (fun j => (l.filter (fun a => g a == j)).length) = l.length := by
  intro l
  induction l with
  | nil => intro m _; simp
  | cons a t ih =>
    intro m h
    have ha : g a < m := h a (List.mem_cons_self a t)
    have ht : ∀ x ∈ t, g x < m := fun x hx => h x (List.mem_cons_of_mem a hx)
    have hsplit : ∀ j, ((a :: t).filter (fun x => g x == j)).length =
        (if g a = j then 1 else 0) + (t.filter (fun x => g x == j)).length := by
      intro j
      rw [List.filter_cons]
      by_cases hj : g a = j
      · simp only [hj, beq_self_eq_true, if_pos, List.length_cons]
        omega
      · have hb : (g a == j) = false := by simpa using hj
        simp [hb, hj]
    rw [Finset.sum_congr rfl (fun j _ => hsplit j), Finset.sum_add_distrib, ih m ht]
    have hone : (Finset.range m).sum (fun j => if g a = j then 1 else 0) = 1 := by
      rw [Finset.sum_ite_eq (Finset.range m) (g a) (fun _ => 1)]
      rw [if_pos (Finset.mem_range.mpr ha)]
    rw [hone]
    rw [List.length_cons]
    omega

/-- Claim C4: for every frame, the modelled site-occupancy classifier
assigns each current atom to exactly one (nearest, periodic-boundary-aware)
reference site — none unassigned, none assigned twice — so the per-site
occupancy counts sum to the number of current atoms in the frame. -/
theorem ws_occupancy_conservation (box : SimBox) (sites : List Vec3) (atoms : List Atom)
    (hsites : sites ≠ []) :
    (∀ a ∈ atoms, assignSite box sites a.pos < sites.length) ∧
    (Finset.range sites.length).sum (occupancy box sites atoms) = atoms.length ∧
    (∀ a ∈ atoms, ∃! j, j < sites.length ∧ assignSite box sites a.pos = j) := by
  refine ⟨fun a _ => assignSite_lt box sites a.pos hsites, ?_, ?_⟩
  · exact sum_filter_count (fun a => assignSite box sites a.pos) atoms sites.length
      (fun a _ => assignSite_lt box sites a.pos hsites)
  · intro a _
    exact ⟨assignSite box sites a.pos,
      ⟨assignSite_lt box sites a.pos hsites, rfl⟩,
      fun j hj => hj.2.symm⟩

/-- Witness for C4 at a concrete one-site, one-atom frame. -/
theorem ws_occupancy_conservation_witness :
    ([⟨0, 0, 0⟩] : List Vec3) ≠ [] ∧
    (Finset.range ([(⟨0, 0, 0⟩ : Vec3)] : List Vec3).length).sum
      (occupancy ⟨0, 10, 0, 10, 0, 10, false, false, false⟩ [⟨0, 0, 0⟩]
        [⟨1, ⟨1, 1, 1⟩, 1⟩]) = 1 :=
  ⟨List.cons_ne_nil _ _,
   (ws_occupancy_conservation ⟨0, 10, 0, 10, 0, 10, false, false, false⟩ [⟨0, 0, 0⟩]
      [⟨1, ⟨1, 1, 1⟩, 1⟩] (List.cons_ne_nil _ _)).2.1⟩

/-- Amended claim C2: a reference site is in the vacancy export iff 0 atoms
are assigned to it, in the interstitial export iff exactly 2 atoms are
assigned to it (its assigned atoms are the exported records), and in neither
export when 1 atom or more than 2 atoms are assigned — the source selects
`occupancies == 2` exactly, so occupancy above 2 is not reported. -/
theorem ws_site_classification (box : SimBox) (sites : List Vec3) (atoms : List Atom)
    (j : Nat) (hj : j < sites.length) :
    ((j, sites.getD j ⟨0, 0, 0⟩) ∈ ws_vac_export box sites atoms ↔
      occupancy box sites atoms j = 0) ∧
    (∀ a ∈ atoms, assignSite box sites a.pos = j →
      (a ∈ ws_sia_export box sites atoms ↔ occupancy box sites atoms j = 2)) ∧
    (occupancy box sites atoms j = 1 ∨ 2 < occupancy box sites atoms j →
      (j, sites.getD j ⟨0, 0, 0⟩) ∉ ws_vac_export box sites atoms ∧
      ∀ a ∈ atoms, assignSite box sites a.pos = j →
        a ∉ ws_sia_export box sites atoms) := by
  have hvac : (j, sites.getD j ⟨0, 0, 0⟩) ∈ ws_vac_export box sites atoms ↔
      occupancy box sites atoms j = 0 := by
    unfold ws_vac_export
    rw [List.mem_map]
    constructor
    · rintro ⟨j', hj', hpair⟩
      rw [List.mem_filter] at hj'
      have : j' = j := congrArg Prod.fst hpair
      rw [← this]
      simpa using hj'.2
    · intro h0
      refine ⟨j, ?_, rfl⟩
      rw [List.mem_filter]
      exact ⟨List.mem_range.mpr hj, by simp [h0]⟩
  have hsia : ∀ a ∈ atoms, assignSite box sites a.pos = j →
      (a ∈ ws_sia_export box sites atoms ↔ occupancy box sites atoms j = 2) := by
    intro a ha hassign
    unfold ws_sia_export
    rw [List.mem_filter, hassign]
    constructor
    · intro h
      simpa using h.2
    · intro h2
      exact ⟨ha, by simp [h2]⟩
  refine ⟨hvac, hsia, ?_⟩
  intro hbad
  constructor
  · intro hin
    rcases hbad with h1 | h1
    · rw [hvac.mp hin] at h1
      exact absurd h1 (by decide)
    · rw [hvac.mp hin] at h1
      exact absurd h1 (by decide)
  · intro a ha hassign hin
    have h2 := (hsia a ha hassign).mp hin
    rcases hbad with h1 | h1
    · rw [h2] at h1
      exact absurd h1 (by decide)
    · rw [h2] at h1
      exact absurd h1 (by decide)

/-- Counterexample to claim C2 as stated: with a single reference site and
three current atoms all assigned to it (occupancy 3 > 2), the interstitial
export is empty — the occupancy-over-2 site is NOT reported alongside the
occupancy-2 sites (and it is not in the vacancy export either). -/
theorem ws_occupancy_gt2_counterexample :
    occupancy ⟨0, 10, 0, 10, 0, 10, false, false, false⟩ [⟨0, 0, 0⟩]
      [⟨1, ⟨0, 0, 0⟩, 1⟩, ⟨2, ⟨1, 0, 0⟩, 1⟩, ⟨3, ⟨0, 1, 0⟩, 1⟩] 0 = 3 ∧
    ws_sia_export ⟨0, 10, 0, 10, 0, 10, false, false, false⟩ [⟨0, 0, 0⟩]
      [⟨1, ⟨0, 0, 0⟩, 1⟩, ⟨2, ⟨1, 0, 0⟩, 1⟩, ⟨3, ⟨0, 1, 0⟩, 1⟩] = [] ∧
    ws_vac_export ⟨0, 10, 0, 10, 0, 10, false, false, false⟩ [⟨0, 0, 0⟩]
      [⟨1, ⟨0, 0, 0⟩, 1⟩, ⟨2, ⟨1, 0, 0⟩, 1⟩, ⟨3, ⟨0, 1, 0⟩, 1⟩] = [] := by
  refine ⟨?_, ?_, ?_⟩ <;> decide

/-- Witness for the amended C2 at a concrete single-site frame with no
atoms: the (vacant) site is in the vacancy export iff its occupancy is 0. -/
theorem ws_site_classification_witness :
    0 < ([(⟨0, 0, 0⟩ : Vec3)] : List Vec3).length ∧
    ((0, (⟨0, 0, 0⟩ : Vec3)) ∈
        ws_vac_export ⟨0, 10, 0, 10, 0, 10, false, false, false⟩ [⟨0, 0, 0⟩] [] ↔
      occupancy ⟨0, 10, 0, 10, 0, 10, false, false, false⟩ [⟨0, 0, 0⟩] [] 0 = 0) :=
  ⟨by decide,
   (ws_site_classification ⟨0, 10, 0, 10, 0, 10, false, false, false⟩ [⟨0, 0, 0⟩] []
      0 (by decide)).1⟩

/-- Claim C5: for every frame, every atom assigned to a site of occupancy
exactly 2 is reported (with identifier and position) in the interstitial
export, and there are exactly 2 such atoms per such site; the vacancy export
reports the reference site's index and position (not an existing atom) for
each site of occupancy 0, and contains nothing else. -/
theorem ws_export_contents (box : SimBox) (sites : List Vec3) (atoms : List Atom) :
    (∀ j, j < sites.length → occupancy box sites atoms j = 2 →
      (∀ a ∈ atoms, assignSite box sites a.pos = j →
        a ∈ ws_sia_export box sites atoms) ∧
      (atoms.filter (fun a => assignSite box sites a.pos == j)).length = 2) ∧
    (∀ j, j < sites.length → occupancy box sites atoms j = 0 →
      (j, sites.getD j ⟨0, 0, 0⟩) ∈ ws_vac_export box sites atoms) ∧
    (∀ v ∈ ws_vac_export box sites atoms,
      ∃ j, j < sites.length ∧ occupancy box sites atoms j = 0 ∧
        v = (j, sites.getD j ⟨0, 0, 0⟩)) := by
  refine ⟨?_, ?_, ?_⟩
  · intro j _ hocc
    constructor
    · intro a ha hassign
      unfold ws_sia_export
      rw [List.mem_filter]
      exact ⟨ha, by simp [hassign, hocc]⟩
    · exact hocc
  · intro j hj hocc
    unfold ws_vac_export
    rw [List.mem_map]
    refine ⟨j, ?_, rfl⟩
    rw [List.mem_filter]
    exact ⟨List.mem_range.mpr hj, by simp [hocc]⟩
  · intro v hv
    unfold ws_vac_export at hv
    rw [List.mem_map] at hv
    obtain ⟨j, hj, hpair⟩ := hv
    rw [List.mem_filter] at hj
    exact ⟨j, List.mem_range.mp hj.1, by simpa using hj.2, hpair.symm⟩

/-- Witness for C5 at a concrete frame: two sites, two atoms both nearest to
the first site — both atoms land in the interstitial export and the second
(empty) site lands in the vacancy export. -/
theorem ws_export_contents_witness :
    (⟨1, ⟨0, 0, 0⟩, 1⟩ : Atom) ∈
      ws_sia_export ⟨0, 10, 0, 10, 0, 10, false, false, false⟩
        [⟨0, 0, 0⟩, ⟨3, 0, 0⟩] [⟨1, ⟨0, 0, 0⟩, 1⟩, ⟨2, ⟨1, 0, 0⟩, 1⟩] ∧
    (1, (⟨3, 0, 0⟩ : Vec3)) ∈
      ws_vac_export ⟨0, 10, 0, 10, 0, 10, false, false, false⟩
        [⟨0, 0, 0⟩, ⟨3, 0, 0⟩] [⟨1, ⟨0, 0, 0⟩, 1⟩, ⟨2, ⟨1, 0, 0⟩, 1⟩] :=
  ⟨((ws_export_contents ⟨0, 10, 0, 10, 0, 10, false, false, false⟩
      [⟨0, 0, 0⟩, ⟨3, 0, 0⟩] [⟨1, ⟨0, 0, 0⟩, 1⟩, ⟨2, ⟨1, 0, 0⟩, 1⟩]).1
        0 (by decide)
        (by norm_num [occupancy, assignSite, bestSite, sqDist, axisSq, List.filter])).1
      ⟨1, ⟨0, 0, 0⟩, 1⟩ (by decide)
      (by norm_num [assignSite, bestSite, sqDist, axisSq]),
   (ws_export_contents ⟨0, 10, 0, 10, 0, 10, false, false, false⟩
      [⟨0, 0, 0⟩, ⟨3, 0, 0⟩] [⟨1, ⟨0, 0, 0⟩, 1⟩, ⟨2, ⟨1, 0, 0⟩, 1⟩]).2.1
        1 (by decide)
        (by norm_num [occupancy, assignSite, bestSite, sqDist, axisSq, List.filter]
            decide)⟩

/-- Counterexample to claim C3 as stated: a worker processing two frames
performs two reference loads, not one — `performWS` creates and loads the
reference `FileSource` inside its body, once per frame. -/
theorem reference_reload_counterexample :
    (referenceLoads (process_file_events ["dump_a", "dump_b"])).length = 2 ∧
    (referenceLoads (process_file_events ["dump_a", "dump_b"])).length ≠ 1 := by
  constructor
  · decide
  · decide

/-- Amended claim C3: the reference lattice file is loaded once per frame
(not once per worker): a worker's trace contains exactly one reference-load
event per frame of its slice, and every one of them loads the same fixed
path, so every frame is still analysed against the identical reference. -/
theorem reference_loaded_once_per_frame :
    ∀ dump_chunk : List String,
      referenceLoads (process_file_events dump_chunk) =
        List.replicate dump_chunk.length (AnalysisEvent.loadReference REFERENCE_FILE) := by
  intro chunk
  induction chunk with
  | nil => rfl
  | cons f t ih =>
    have h1 : process_file_events (f :: t) =
        (AnalysisEvent.loadFrame f :: (performDXA_events f ++ performWS_events f)) ++
          process_file_events t := by
      simp [process_file_events]
    have h2 : referenceLoads
        ((AnalysisEvent.loadFrame f :: (performDXA_events f ++ performWS_events f)) ++
          process_file_events t) =
        AnalysisEvent.loadReference REFERENCE_FILE ::
          referenceLoads (process_file_events t) := by
      unfold referenceLoads
      rw [List.filter_append]
      rfl
    rw [h1, h2, ih]
    rfl

/-- Counterexample to claim C7 as stated: with a chunk of three frames whose
middle frame fails, only the first frame is processed — the third (sibling)
frame is skipped as well, and the worker does not reach the barrier. -/
theorem process_file_error_counterexample :
    process_file_run
      [("dump_a", none), ("dump_b", some FrameError.classificationError), ("dump_c", none)] =
      (["dump_a"], some FrameError.classificationError) ∧
    worker_reaches_barrier
      [("dump_a", none), ("dump_b", some FrameError.classificationError), ("dump_c", none)] =
      false := by
  constructor
  · rfl
  · rfl

theorem process_file_run_clean :
    ∀ chunk : List (String × Option FrameError), (∀ p ∈ chunk, p.2 = none) →
      process_file_run chunk = (chunk.map Prod.fst, none) := by
  intro chunk
  induction chunk with
  | nil => intro _; rfl
  | cons p t ih =>
    intro h
    obtain ⟨name, o⟩ := p
    have ho : o = none := h (name, o) (List.mem_cons_self _ _)
    subst ho
    have ht : ∀ q ∈ t, q.2 = none := fun q hq => h q (List.mem_cons_of_mem _ hq)
    simp only [process_file_run, ih ht, List.map_cons]

theorem process_file_run_abort :
    ∀ (pre : List (String × Option FrameError)) (name : String) (e : FrameError)
      (rest : List (String × Option FrameError)), (∀ p ∈ pre, p.2 = none) →
        process_file_run (pre ++ (name, some e) :: rest) = (pre.map Prod.fst, some e) := by
  intro pre
  induction pre with
  | nil => intro name e rest _; rfl
  | cons p t ih =>
    intro name e rest h
    obtain ⟨nm, o⟩ := p
    have ho : o = none := h (nm, o) (List.mem_cons_self _ _)
    subst ho
    have ht : ∀ q ∈ t, q.2 = none := fun q hq => h q (List.mem_cons_of_mem _ hq)
    simp only [List.cons_append, process_file_run, List.append_eq,
      ih name e rest ht, List.map_cons]

/-- Amended claim C7: `process_file` has no per-frame exception handling, so
a frame-level failure aborts the worker's remaining slice: the frames before
the failing frame are processed, the failing frame raises, no later sibling
frame on that worker is processed, and the worker does not reach the
barrier.  Only an error-free chunk processes every frame and reaches the
barrier. -/
theorem process_file_error_propagation :
    (∀ chunk : List (String × Option FrameError), (∀ p ∈ chunk, p.2 = none) →
      process_file_run chunk = (chunk.map Prod.fst, none) ∧
      worker_reaches_barrier chunk = true) ∧
    (∀ (pre : List (String × Option FrameError)) (name : String) (e : FrameError)
      (rest : List (String × Option FrameError)), (∀ p ∈ pre, p.2 = none) →
        process_file_run (pre ++ (name, some e) :: rest) = (pre.map Prod.fst, some e) ∧
        worker_reaches_barrier (pre ++ (name, some e) :: rest) = false) := by
  constructor
  · intro chunk h
    refine ⟨process_file_run_clean chunk h, ?_⟩
    unfold worker_reaches_barrier
    rw [process_file_run_clean chunk h]
    rfl
  · intro pre name e rest h
    refine ⟨process_file_run_abort pre name e rest h, ?_⟩
    unfold worker_reaches_barrier
    rw [process_file_run_abort pre name e rest h]
    rfl

/-- Witness for the amended C7 at two concrete chunks: a clean chunk
processes its frame and reaches the barrier; a chunk failing at its second
frame processes only the first. -/
theorem process_file_error_propagation_witness :
    (process_file_run [("dump_a", none)] = (["dump_a"], none) ∧
      worker_reaches_barrier [("dump_a", none)] = true) ∧
    (process_file_run
        [("dump_a", none), ("dump_b", some FrameError.exportError), ("dump_c", none)] =
        (["dump_a"], some FrameError.exportError) ∧
      worker_reaches_barrier
        [("dump_a", none), ("dump_b", some FrameError.exportError), ("dump_c", none)] =
        false) :=
  ⟨process_file_error_propagation.1 [("dump_a", none)] (by decide),
   process_file_error_propagation.2 [("dump_a", none)] "dump_b" FrameError.exportError
     [("dump_c", none)] (by decide)⟩

/-- Claim C9: for every frame, the exported dislocation-core atom set of the
structural defect extractor is exactly the atoms whose cluster label is not
the "normal" (perfect local environment) label: every normal-labelled atom
is discarded before export and every atom of any other cluster is
exported. -/
theorem performDXA_export_spec (atoms : List DXAAtom) (a : DXAAtom) :
    a ∈ performDXA_export atoms ↔ a ∈ atoms ∧ a.cluster ≠ normalClusterLabel := by
  unfold performDXA_export deleteSelected dxa_selection normalClusterLabel
  rw [List.mem_filter]
  simp
